import Mathlib

/-!
Shallow embedding of the pachyderm PFS file driver
(`src/server/pfs/server/driver_file.go`) and the PFS master loop
(`src/server/pfs/server/master.go`), together with the pieces of the
fileset storage engine they depend on.  Helpers that live outside the
sampled sources (the `fileset` package transforms, `cleanPath`,
`uuid.IsUUIDWithoutDashes`, the TTL constants) are modelled from the
specification and marked as such in their doc comments.

Strings are modelled with Lean's `String` (a list of characters); Go's
`time.Duration` is modelled as `Int` nanoseconds; fallible operations
return `Except` or explicit result types, and the side effects that the
properties talk about (commit-store calls, writer creation, lock events)
are reified as explicit events or result constructors.
-/

namespace Pachyderm

/-! ## String and path primitives (Go `strings` / `path` semantics) -/

/-- Lexicographic comparison of character lists, mirroring Go string
ordering (`a <= b`). -/
def charListLe : List Char → List Char → Bool
  | [], _ => true
  | _ :: _, [] => false
  | a :: as, b :: bs =>
    if a < b then true
    else if b < a then false
    else charListLe as bs

/-- Lexicographic `<=` on strings (Go string comparison). -/
def strLe (a b : String) : Bool :=
  charListLe a.data b.data

/-- Go `strings.HasPrefix p x` is `strIsPrefixOf p x`. -/
def strIsPrefixOf (a b : String) : Bool :=
  a.data.isPrefixOf b.data

/-- Modelled from the spec: `fileset.IsDir` — a path denotes a directory
entry exactly when it ends with a slash (directory entries carry a
trailing `/`). -/
def isDirPath (p : String) : Bool :=
  p.data.getLast? = some '/'

/-- Splits a character list on `/` separators (Go `strings.Split` on "/"). -/
def splitOnSlash : List Char → List (List Char)
  | [] => [[]]
  | c :: rest =>
    let r := splitOnSlash rest
    if c = '/' then [] :: r
    else match r with
      | [] => [[c]]
      | x :: xs => (c :: x) :: xs

/-- Stack-based element processing of Go `path.Clean`: drops empty and
`.` elements, and resolves `..` against the stack (a rooted path drops
unmatched `..`, an unrooted path keeps it). -/
def cleanElems (rooted : Bool) : List (List Char) → List (List Char) → List (List Char)
  | stack, [] => stack
  | stack, e :: rest =>
    if e = [] ∨ e = ['.'] then cleanElems rooted stack rest
    else if e = ['.', '.'] then
      match stack with
      | [] => if rooted then cleanElems rooted [] rest
              else cleanElems rooted [['.', '.']] rest
      | top :: stack2 =>
        if top = ['.', '.'] then cleanElems rooted (e :: top :: stack2) rest
        else cleanElems rooted stack2 rest
    else cleanElems rooted (e :: stack) rest

/-- Joins path elements with `/` separators. -/
def joinElems : List (List Char) → List Char
  | [] => []
  | [e] => e
  | e :: rest => e ++ '/' :: joinElems rest

/-- Go `path.Clean`: split on slashes, process the elements against a
stack (rooted paths drop leading `..`), join the survivors, and restore
the leading slash (an empty unrooted result is `.`). -/
def goClean (p : String) : String :=
  if p.data.head? = some '/' then
    String.mk ('/' :: joinElems (cleanElems true [] (splitOnSlash p.data)).reverse)
  else if joinElems (cleanElems false [] (splitOnSlash p.data)).reverse = [] then "."
  else String.mk (joinElems (cleanElems false [] (splitOnSlash p.data)).reverse)

/-- Go `path.Join a b` for two non-empty arguments: concatenation with a
slash followed by `path.Clean`. -/
def goPathJoin (a b : String) : String :=
  goClean (a ++ "/" ++ b)

/-- Go `filepath.Rel base p`, modelled on the domain the driver uses it
on (both arguments cleaned and `p` equal to `base` or lying under
`base ++ "/"`, which the preceding index filter guarantees). -/
def goRel (base p : String) : String :=
  if p = base then "."
  else if strIsPrefixOf (base ++ "/") p then String.mk (p.data.drop (base.data.length + 1))
  else "."

/-- Modelled from the spec: `cleanPath`, the path normaliser applied by
the file operations, which roots the supplied path and cleans it (the
helper itself lives outside the sampled sources; the spec's entry model
uses rooted, cleaned paths). -/
def cleanPath (p : String) : String :=
  goClean ("/" ++ p)

/-- Proper prefixes of a path that end in a slash, accumulated while
scanning the path left to right: the ancestor directory paths. -/
def dirParentsAux (acc : List Char) : List Char → List (List Char)
  | [] => []
  | c :: rest =>
    let acc2 := acc ++ [c]
    if c = '/' ∧ rest ≠ [] then acc2 :: dirParentsAux acc2 rest
    else dirParentsAux acc2 rest

/-- Ancestor directory paths of `p`: every proper prefix of `p` ending
in `/`. -/
def dirParents (p : String) : List String :=
  (dirParentsAux [] p.data).map String.mk

/-! ## Go `fmt` semantics for `getDefaultTag` (C8) -/

/-- Decimal digit character for `n < 10`. -/
def digitChar (n : Nat) : Char :=
  Char.ofNat (48 + n)

/-- Fuel-driven decimal-digit worker (the fuel strictly bounds the
value, so the recursion is structural and computable by the kernel). -/
def natDigitsAux : Nat → Nat → List Char
  | 0, _ => []
  | fuel + 1, n =>
    if n < 10 then [digitChar n]
    else natDigitsAux fuel (n / 10) ++ [digitChar (n % 10)]

/-- Decimal digits of a natural number, most significant first. -/
def natDigits (n : Nat) : List Char :=
  natDigitsAux (n + 1) n

/-- Go default decimal formatting of a signed 64-bit integer value. -/
def intDecimal (n : Int) : String :=
  if n < 0 then String.mk ('-' :: natDigits n.natAbs)
  else String.mk (natDigits n.natAbs)

/-- An operand passed to Go's `fmt` functions: the driver only ever
passes a string and an `int64`. -/
inductive GoValue where
  | str (s : String)
  | int64 (n : Int)
deriving DecidableEq, Repr

/-- Whether a `fmt` operand is a string (controls `Sprint` spacing). -/
def GoValue.isStr : GoValue → Bool
  | .str _ => true
  | .int64 _ => false

/-- Default (verb-free) formatting of one operand, as used by
`fmt.Sprint`. -/
def formatValue : GoValue → String
  | .str s => s
  | .int64 n => intDecimal n

/-- Go `fmt.Sprint`: concatenates the default formats of its operands,
adding a space between two consecutive operands only when neither is a
string.  It performs no format-verb interpretation. -/
def goSprint : List GoValue → String
  | [] => ""
  | [a] => formatValue a
  | a :: b :: rest =>
    formatValue a ++ (if a.isStr ∨ b.isStr then "" else " ") ++ goSprint (b :: rest)

/-- Left-pads a character list with `'0'` up to width `w`. -/
def zeroPad (w : Nat) (l : List Char) : List Char :=
  List.replicate (w - l.length) '0' ++ l

/-- Go `fmt.Sprintf` with format `"%012d"` applied to one integer: the
decimal representation zero-padded to width 12 (the sign, if any,
precedes the padding). -/
def sprintfZeroPad12 (n : Int) : String :=
  if n < 0 then String.mk ('-' :: zeroPad 11 (natDigits n.natAbs))
  else String.mk (zeroPad 12 (natDigits n.natAbs))

/-! ## Core data model -/

/-- A commit reference: repo name plus commit id (`*pfs.Commit`). -/
structure Commit where
  repo : String
  id : String
deriving DecidableEq, Repr

/-- The slice of `*pfs.CommitInfo` the file driver consults: the
resolved commit and the optional `Finished` timestamp. -/
structure CommitInfo where
  commit : Commit
  finished : Option Nat
deriving DecidableEq, Repr

/-- A file reference: commit plus path (`*pfs.File`). -/
structure FileRef where
  commit : Commit
  path : String
deriving DecidableEq, Repr

/-- The errors the modelled operations surface. -/
inductive PfsError where
  /-- `pfsserver.ErrCommitFinished` -/
  | commitFinished (c : Commit)
  /-- `pfsserver.ErrCommitNotFinished` -/
  | commitNotFinished (c : Commit)
  /-- `pfsserver.ErrFileNotFound`, naming the requested file -/
  | fileNotFound (f : FileRef)
  /-- a not-found error recognised by `isNotFoundErr` -/
  | notFound (what : String)
  /-- a no-head error recognised by `isNoHeadErr` -/
  | noHead (branch : String)
  /-- a validation error built with `errors.Errorf` / `errors.New` -/
  | validation (msg : String)
  /-- authorization rejected by the auth collaborator -/
  | authDenied (repo : String)
  /-- any other propagated error -/
  | other (msg : String)
deriving DecidableEq, Repr

/-- Recognises not-found errors (`isNotFoundErr`). -/
def isNotFoundErr : PfsError → Bool
  | .notFound _ => true
  | _ => false

/-- Recognises no-head errors (`isNoHeadErr`). -/
def isNoHeadErr : PfsError → Bool
  | .noHead _ => true
  | _ => false

/-- One index entry of a fileset: path, tag and content payload. -/
structure IdxEntry where
  path : String
  tag : String
  content : String
deriving DecidableEq, Repr

/-- The environment a file-driver operation runs against: the outcome
of `d.inspectCommit`, the auth collaborator's answer, and the commit
store's `GetFileset`.  Modelling them as fixed functions reflects that
the driver holds no lock between its own calls but each call is
deterministic within the modelled step. -/
structure DriverEnv where
  inspectCommit : Commit → Except PfsError CommitInfo
  authOK : String → Bool
  storeGetFileset : Commit → Except PfsError String

/-! ## Fileset read transforms

The `fileset` package is not among the sampled sources; the transforms
below are modelled from the spec: composable wrappers over a lazy,
path-ordered entry sequence, modelled here as functions over the
materialised entry list. -/

/-- Modelled from the spec: `index.WithPrefix` narrows the read range
to entries whose path carries the given string prefix. -/
def applyPrefix : Option String → List IdxEntry → List IdxEntry
  | none, es => es
  | some p, es => es.filter fun e => strIsPrefixOf p e.path

/-- Modelled from the spec: `NewIndexFilter` drops entries whose path
fails the predicate, preserving order. -/
def indexFilter (pred : IdxEntry → Bool) (es : List IdxEntry) : List IdxEntry :=
  es.filter pred

/-- Modelled from the spec: `NewIndexMapper` rewrites each entry. -/
def indexMapper (f : IdxEntry → IdxEntry) (es : List IdxEntry) : List IdxEntry :=
  es.map f

/-- Modelled from the spec: `NewIndexResolver` collapses duplicate-path
entries into one canonical entry per path, the last one under merge
order winning. -/
def resolveEntries : List IdxEntry → List IdxEntry
  | [] => []
  | e :: rest =>
    if rest.any (fun x => x.path = e.path) then resolveEntries rest
    else e :: resolveEntries rest

/-- A synthesized directory entry. -/
def dirEntry (d : String) : IdxEntry :=
  ⟨d, "", ""⟩

/-- Worker for `dirInserter`: walks the ordered entries, emitting before
each entry the ancestor directory entries not already seen. -/
def insDirs (seen : List String) : List IdxEntry → List IdxEntry
  | [] => []
  | e :: rest =>
    let ds := (dirParents e.path).filter fun d => ¬ seen.contains d
    ds.map dirEntry ++ e :: insDirs (seen ++ ds ++ [e.path]) rest

/-- Modelled from the spec: `NewDirInserter` synthesizes implicit
directory entries for every path prefix that has children but no
explicit directory entry, so listings are structurally complete. -/
def dirInserter (es : List IdxEntry) : List IdxEntry :=
  insDirs [] es

/-! ## Driver operations (`driver_file.go`) -/

/-- Observable side effects of a write-path driver operation. -/
inductive DriverEvent where
  /-- `d.storage.NewWriter` created a fileset writer -/
  | newWriterCreated
  /-- `d.commitStore.AddFileset` bound a fileset to a commit -/
  | storeAddFileset (c : Commit)
deriving DecidableEq, Repr

/-- Outcome of `addFileset`: either a failure before touching the commit
store, or the commit-store binding call. -/
inductive AddFilesetResult where
  | failed (e : PfsError)
  | storedInCommitStore (c : Commit) (filesetID : String)
deriving DecidableEq, Repr

/-- `driver.addFileset`: inspect the commit, reject finished commits,
otherwise bind the fileset via the commit store. -/
def addFileset (env : DriverEnv) (commit : Commit) (filesetID : String) : AddFilesetResult :=
  match env.inspectCommit commit with
  | .error e => .failed e
  | .ok ci =>
    if ci.finished.isSome then .failed (.commitFinished ci.commit)
    else .storedInCommitStore ci.commit filesetID

/-- `driver.withCommitWriter`: inspect the commit, reject finished
commits before creating a writer, otherwise create a fileset writer,
run the callback with the default tag, close the writer and bind the
resulting fileset.  The callback is abstracted as the list of entries it
appends (or the error it fails with); the returned event list reifies
writer creation and the commit-store call. -/
def withCommitWriter (env : DriverEnv) (commit : Commit) (tag : String)
    (cb : String → Except PfsError (List IdxEntry)) :
    List DriverEvent × Except PfsError (Commit × List IdxEntry) :=
  match env.inspectCommit commit with
  | .error e => ([], .error e)
  | .ok ci =>
    if ci.finished.isSome then ([], .error (.commitFinished ci.commit))
    else
      match cb tag with
      | .error e => ([.newWriterCreated], .error e)
      | .ok appended =>
        ([.newWriterCreated, .storeAddFileset ci.commit], .ok (ci.commit, appended))

/-- Outcome of `openCommit`: either a failure, or the resolved commit
together with the opened fileset's merged entries. -/
inductive OpenCommitResult where
  | failed (e : PfsError)
  | opened (c : Commit) (entries : List IdxEntry)
deriving DecidableEq, Repr

/-- `driver.openCommit`: auth check, inspect, reject unfinished commits,
resolve the bound fileset id through the commit store and open it.
`fsOf` gives the entries of a stored fileset id; `pre` is the optional
`index.WithPrefix` narrowing. -/
def openCommit (env : DriverEnv) (fsOf : String → List IdxEntry)
    (commit : Commit) (pre : Option String) : OpenCommitResult :=
  if ¬ env.authOK commit.repo then .failed (.authDenied commit.repo)
  else
    match env.inspectCommit commit with
    | .error e => .failed e
    | .ok ci =>
      if ci.finished.isNone then .failed (.commitNotFinished ci.commit)
      else
        match env.storeGetFileset ci.commit with
        | .error e => .failed e
        | .ok id => .opened ci.commit (applyPrefix pre (fsOf id))

/-- `driver.getFileset`: inspect, reject unfinished commits, otherwise
return the commit store's bound fileset id. -/
def getFileset (env : DriverEnv) (commit : Commit) : Except PfsError String :=
  match env.inspectCommit commit with
  | .error e => .error e
  | .ok ci =>
    if ci.finished.isNone then .error (.commitNotFinished ci.commit)
    else env.storeGetFileset ci.commit

/-- The path rewrite `copyFile` installs in its `IndexMapper`:
`path.Join(dstPath, filepath.Rel(srcPath, x))`. -/
def pathTransform (srcPath dstPath x : String) : String :=
  goPathJoin dstPath (goRel srcPath x)

/-- Outcome of `copyFile`: a failure (no write reaches the destination
commit), or the entries appended to the destination commit. -/
inductive CopyFileResult where
  | failed (e : PfsError)
  | copied (dst : Commit) (appended : List IdxEntry)
deriving DecidableEq, Repr

/-- `driver.copyFile`: inspect the source commit (must be finished),
inspect the destination commit (must be open), reject `overwrite`,
then open the source fileset narrowed to the source prefix, filter it
to the prefix range, rebase paths onto the destination prefix with the
`IndexMapper`, and append every resulting entry to the destination
commit through `withCommitWriter` under the default tag. -/
def copyFile (env : DriverEnv) (fsOf : String → List IdxEntry)
    (src dst : FileRef) (overwrite : Bool) (tag : String) : CopyFileResult :=
  match env.inspectCommit src.commit with
  | .error e => .failed e
  | .ok srcCI =>
    if srcCI.finished.isNone then .failed (.commitNotFinished srcCI.commit)
    else
      match env.inspectCommit dst.commit with
      | .error e => .failed e
      | .ok dstCI =>
        if dstCI.finished.isSome then .failed (.commitFinished dstCI.commit)
        else if overwrite then .failed (.validation "overwrite not yet supported")
        else
          let srcPath := cleanPath src.path
          let dstPath := cleanPath dst.path
          match openCommit env fsOf srcCI.commit (some srcPath) with
          | .failed e => .failed e
          | .opened _ es =>
            let es1 := indexFilter
              (fun idx => decide (idx.path = srcPath) || strIsPrefixOf (srcPath ++ "/") idx.path) es
            let es2 := indexMapper
              (fun idx => { idx with path := pathTransform srcPath dstPath idx.path }) es1
            match withCommitWriter env dstCI.commit tag
                (fun t => .ok (es2.map fun e => { e with tag := t })) with
            | (_, .error e) => .failed e
            | (_, .ok (c, appended)) => .copied c appended

/-- Go `time.Second` in nanoseconds (`time.Duration` is an `int64`
nanosecond count). -/
def nanoSecond : Int := 1000000000

/-- Modelled from the spec: the temporary-repo path prefix under which
temporary filesets live (`tmpRepo`, defined outside the sampled
sources). -/
def tmpRepo : String := "tmp"

/-- Outcome of `renewFileset`: a validation failure that never reaches
storage, or the delegated `storage.SetTTL` call. -/
inductive RenewResult where
  | failed (msg : String)
  | setTTLCalled (p : String) (ttl : Int)
deriving DecidableEq, Repr

/-- `driver.renewFileset`: validates the TTL bounds and the 32-character
id length, then delegates to `storage.SetTTL` on the temporary-repo
path for the id.  `maxTTL` is the configured maximum (a constant defined
outside the sampled sources, taken here as a parameter). -/
def renewFileset (maxTTL : Int) (id : String) (ttl : Int) : RenewResult :=
  if ttl < nanoSecond then .failed "ttl must be at least one second"
  else if ttl > maxTTL then .failed "ttl exceeds max ttl"
  else if id.length ≠ 32 then .failed "invalid id"
  else .setTTLCalled (goPathJoin tmpRepo id) ttl

/-- The slice of `*pfs.FileInfo` the modelled read operations produce. -/
structure FileInfo where
  commit : Commit
  path : String
deriving DecidableEq, Repr

/-- `driver.inspectFile`: clean the path (mapping `/` to the empty
prefix), open the commit narrowed to it, resolve duplicates, synthesize
directories, filter to the path's range, fail with `ErrFileNotFound`
when the range is empty (`NewErrOnEmpty`), and otherwise return the
`FileInfo` whose path is the target or its directory form. -/
def inspectFile (env : DriverEnv) (fsOf : String → List IdxEntry)
    (file : FileRef) : Except PfsError (Option FileInfo) :=
  let p0 := cleanPath file.path
  let p := if p0 = "/" then "" else p0
  match openCommit env fsOf file.commit (some p) with
  | .failed e => .error e
  | .opened c es =>
    let es1 := resolveEntries es
    let es2 := dirInserter es1
    let es3 := indexFilter
      (fun idx => decide (idx.path = p) || strIsPrefixOf (p ++ "/") idx.path) es2
    if es3.isEmpty then .error (.fileNotFound file)
    else
      let hits := es3.filter fun e => decide (e.path = p) || decide (e.path = p ++ "/")
      .ok (hits.getLast?.map fun e => FileInfo.mk c e.path)

/-- The stateful glob filter inside `getFile`: keeps every entry whose
path extends the remembered directory `dir`, otherwise consults the
glob matcher `mf`, remembering a matched directory path as the new
`dir`. -/
def getFileKeep (mf : String → Bool) : String → List IdxEntry → List IdxEntry
  | _, [] => []
  | dir, e :: rest =>
    if dir ≠ "" ∧ strIsPrefixOf dir e.path = true then
      e :: getFileKeep mf dir rest
    else
      let m := mf e.path
      let dir2 := if m = true ∧ isDirPath e.path = true then e.path else dir
      if m then e :: getFileKeep mf dir2 rest
      else getFileKeep mf dir2 rest

/-- `driver.getFile`: parse the glob into a prefix hint `pre` plus a
match predicate `mf` (glob compilation lives outside the sampled
sources and is taken as the parameter pair), open the commit, synthesize
directories and stream the entries kept by the stateful glob filter into
the tar stream (modelled as the kept entry list). -/
def getFile (env : DriverEnv) (fsOf : String → List IdxEntry)
    (commit : Commit) (pre : Option String) (mf : String → Bool) :
    Except PfsError (List IdxEntry) :=
  match openCommit env fsOf commit pre with
  | .failed e => .error e
  | .opened _ es => .ok (getFileKeep mf "" (dirInserter es))

/-! ## `modifyFile` and the one-off write transaction -/

/-- Steps of the one-off write transaction, in execution order. -/
inductive TxnStep where
  | startedCommit (repo branch : String) (c : Commit)
  | appliedWrites (c : Commit)
  | finishedCommit (c : Commit)
deriving DecidableEq, Repr

/-- The write-side environment of `modifyFile`: starting a commit on a
branch, applying the buffered callback writes to a commit
(`withCommitUnorderedWriter`), and finishing a commit. -/
structure WriteEnv where
  startCommit : String → String → Except PfsError Commit
  applyWrites : Commit → Option PfsError
  finishCommit : Commit → Option PfsError

/-- `driver.oneOffModifyFile`: inside one write transaction, start a
fresh commit on the branch, apply the buffered writes, and (when no
step failed) finish the commit via the deferred `finishCommit`. -/
def oneOffModifyFile (w : WriteEnv) (repo branch : String) :
    List TxnStep × Option PfsError :=
  match w.startCommit repo branch with
  | .error e => ([], some e)
  | .ok c =>
    match w.applyWrites c with
    | some e => ([.startedCommit repo branch c], some e)
    | none =>
      match w.finishCommit c with
      | some e => ([.startedCommit repo branch c, .appliedWrites c], some e)
      | none =>
        ([.startedCommit repo branch c, .appliedWrites c, .finishedCommit c], none)

/-- Outcome of `modifyFile`. -/
inductive ModifyFileResult where
  /-- an error surfaced directly to the caller -/
  | err (e : PfsError)
  /-- writes applied to the existing open commit
  (`withCommitUnorderedWriter`) -/
  | direct (c : Commit) (e : Option PfsError)
  /-- a one-off write transaction (`oneOffModifyFile` under
  `WithWriteContext`) -/
  | oneOffTxn (steps : List TxnStep) (e : Option PfsError)
deriving DecidableEq, Repr

/-- `driver.modifyFile`: treat a non-UUID commit id as a branch name;
on a not-found/no-head inspection error with a branch name, or on a
finished head with a branch name, fall through to the one-off write
transaction; surface `ErrCommitFinished` only when the commit was
identified by UUID; otherwise write to the open commit.  `isUUID`
models `uuid.IsUUIDWithoutDashes` (defined outside the sampled
sources). -/
def modifyFile (env : DriverEnv) (w : WriteEnv) (isUUID : String → Bool)
    (commit : Commit) : ModifyFileResult :=
  let branch := if isUUID commit.id then "" else commit.id
  match env.inspectCommit commit with
  | .error e =>
    if (isNotFoundErr e = false ∧ isNoHeadErr e = false) ∨ branch = "" then .err e
    else
      let r := oneOffModifyFile w commit.repo branch
      .oneOffTxn r.1 r.2
  | .ok ci =>
    if ci.finished.isSome then
      if branch = "" then .err (.commitFinished ci.commit)
      else
        let r := oneOffModifyFile w commit.repo branch
        .oneOffTxn r.1 r.2
    else .direct ci.commit (w.applyWrites ci.commit)

/-! ## The PFS master loop (`master.go`) -/

/-- Observable events of one master-loop iteration. -/
inductive MasterEvent where
  | lockAcquired
  | gcSweepRan
  | lockReleased
  | loggedError (e : String)
deriving DecidableEq, Repr

/-- Outcome of one iteration of the retried body: the lock acquisition
fails, or the GC sweep fails under the lock, or the sweep succeeds. -/
inductive IterOutcome where
  | lockFailed (e : String)
  | gcFailed (e : String)
  | gcSucceeded
deriving DecidableEq, Repr

/-- Events of one iteration: a failed lock acquisition touches nothing;
once the lock is acquired the GC sweep runs under it and the deferred
unlock releases it when the sweep returns, error or not. -/
def iterEvents : IterOutcome → List MasterEvent
  | .lockFailed _ => []
  | .gcFailed _ => [.lockAcquired, .gcSweepRan, .lockReleased]
  | .gcSucceeded => [.lockAcquired, .gcSweepRan, .lockReleased]

/-- The error the iteration body returns to `backoff.RetryNotify`. -/
def iterErr : IterOutcome → Option String
  | .lockFailed e => some e
  | .gcFailed e => some e
  | .gcSucceeded => none

/-- Observed state of `backoff.RetryNotify` after a bounded number of
iterations. -/
inductive RetryResult where
  /-- the loop has consumed the observation budget and is still
  retrying -/
  | stillLooping (events : List MasterEvent)
  /-- the loop returned to its caller with the given result -/
  | returned (events : List MasterEvent) (r : Option String)
deriving DecidableEq, Repr

/-- `backoff.RetryNotify` with an infinite backoff and the master's
notify function, which logs the error and returns nil so the loop
always retries.  `outs` gives the outcome of each successive iteration
and `fuel` bounds how many iterations are observed — the real loop is
unbounded, so exhausting `fuel` means the loop is still running. -/
def retryNotify (outs : Nat → IterOutcome) (start fuel : Nat) : RetryResult :=
  match fuel with
  | 0 => .stillLooping []
  | fuel2 + 1 =>
    let o := outs start
    match iterErr o with
    | none => .returned (iterEvents o) none
    | some e =>
      match retryNotify outs (start + 1) fuel2 with
      | .stillLooping evs => .stillLooping (iterEvents o ++ .loggedError e :: evs)
      | .returned evs r => .returned (iterEvents o ++ .loggedError e :: evs) r

/-- Observed state of `driver.master`. -/
inductive MasterResult where
  /-- the retry loop is still running -/
  | stillRunning (events : List MasterEvent)
  /-- the retry loop exited and `master` panicked with its result -/
  | panicked (events : List MasterEvent) (r : Option String)
deriving DecidableEq, Repr

/-- `driver.master`: run the retry loop; if it ever returns, panic with
its result — `master` never returns normally. -/
def master (outs : Nat → IterOutcome) (fuel : Nat) : MasterResult :=
  match retryNotify outs 0 fuel with
  | .stillLooping evs => .stillRunning evs
  | .returned evs r => .panicked evs r

/-- `driver.getDefaultTag`: `fmt.Sprint("%012d", time.Now().UnixNano())`
at the current nanosecond timestamp `now`. -/
def getDefaultTag (now : Int) : String :=
  goSprint [.str "%012d", .int64 now]

/-! ## Concrete fixtures used by the witnesses -/

/-- A sample commit reference. -/
def commitA : Commit := ⟨"repoA", "c1"⟩

/-- A sample environment whose every commit resolves as finished. -/
def envFinished : DriverEnv where
  inspectCommit := fun c => .ok ⟨c, some 7⟩
  authOK := fun _ => true
  storeGetFileset := fun _ => .ok "fs0"

/-- A sample environment whose every commit resolves as unfinished. -/
def envOpen : DriverEnv where
  inspectCommit := fun c => .ok ⟨c, none⟩
  authOK := fun _ => true
  storeGetFileset := fun _ => .ok "fs0"

/-! ## C1 -/

/-- C1: for every commit whose `CommitInfo` has a non-nil `Finished`
timestamp, binding a fileset fails with `ErrCommitFinished` and no
fileset is bound: `addFileset` fails before calling the commit store
(result is not `storedInCommitStore`) and `withCommitWriter` fails with
an empty event list, i.e. before creating a writer. -/
theorem c1_finished_commit_rejects_fileset_binding
    (env : DriverEnv) (commit : Commit) (filesetID tag : String)
    (cb : String → Except PfsError (List IdxEntry))
    (ci : CommitInfo) (t : Nat)
    (hins : env.inspectCommit commit = .ok ci)
    (hfin : ci.finished = some t) :
    addFileset env commit filesetID = .failed (.commitFinished ci.commit) ∧
    withCommitWriter env commit tag cb = ([], .error (.commitFinished ci.commit)) := by
  constructor
  · unfold addFileset
    rw [hins]
    simp [hfin]
  · unfold withCommitWriter
    rw [hins]
    simp [hfin]

/-- Witness for C1 at a concrete finished commit. -/
theorem c1_witness :
    addFileset envFinished commitA "fsX" = .failed (.commitFinished commitA) ∧
    withCommitWriter envFinished commitA "tag0" (fun _ => .ok []) =
      ([], .error (.commitFinished commitA)) :=
  c1_finished_commit_rejects_fileset_binding envFinished commitA "fsX" "tag0"
    (fun _ => .ok []) ⟨commitA, some 7⟩ 7 rfl rfl

/-! ## C2 -/

/-- C2: for every commit whose `CommitInfo` has a nil `Finished`
timestamp, resolving the commit's fileset fails with
`ErrCommitNotFinished` and no fileset is opened or returned:
`openCommit` fails (result is not `opened`) and `getFileset` errors. -/
theorem c2_unfinished_commit_rejects_reads
    (env : DriverEnv) (fsOf : String → List IdxEntry) (commit : Commit)
    (pre : Option String) (ci : CommitInfo)
    (hauth : env.authOK commit.repo = true)
    (hins : env.inspectCommit commit = .ok ci)
    (hfin : ci.finished = none) :
    openCommit env fsOf commit pre = .failed (.commitNotFinished ci.commit) ∧
    getFileset env commit = .error (.commitNotFinished ci.commit) := by
  constructor
  · unfold openCommit
    rw [hins]
    simp [hauth, hfin]
  · unfold getFileset
    rw [hins]
    simp [hfin]

/-- Witness for C2 at a concrete unfinished commit. -/
theorem c2_witness :
    openCommit envOpen (fun _ => []) commitA none =
      .failed (.commitNotFinished commitA) ∧
    getFileset envOpen commitA = .error (.commitNotFinished commitA) :=
  c2_unfinished_commit_rejects_reads envOpen (fun _ => []) commitA none
    ⟨commitA, none⟩ rfl rfl rfl

/-! ## C3 -/

/-- C3: `renewFileset` fails with a validation error, without calling
`SetTTL`, exactly when the TTL is below one second, above the
configured maximum, or the id is not 32 characters long; otherwise it
delegates to `storage.SetTTL` on the temporary-repo path for the id. -/
theorem c3_renewFileset_validation (maxTTL ttl : Int) (id : String) :
    ((∃ msg, renewFileset maxTTL id ttl = .failed msg) ↔
      (ttl < nanoSecond ∨ ttl > maxTTL ∨ id.length ≠ 32)) ∧
    (¬ (ttl < nanoSecond ∨ ttl > maxTTL ∨ id.length ≠ 32) →
      renewFileset maxTTL id ttl = .setTTLCalled (goPathJoin tmpRepo id) ttl) := by
  unfold renewFileset
  by_cases h1 : ttl < nanoSecond <;> by_cases h2 : ttl > maxTTL <;>
    by_cases h3 : id.length = 32 <;> simp [h1, h2, h3]

/-- Witness for C3: a valid renewal delegates, an undersized TTL fails
validation. -/
theorem c3_witness :
    renewFileset (86400 * nanoSecond) "0123456789abcdef0123456789abcdef"
        (5 * nanoSecond) =
      .setTTLCalled (goPathJoin tmpRepo "0123456789abcdef0123456789abcdef")
        (5 * nanoSecond) ∧
    (∃ msg, renewFileset (86400 * nanoSecond) "0123456789abcdef0123456789abcdef"
        (nanoSecond / 2) = .failed msg) :=
  ⟨(c3_renewFileset_validation (86400 * nanoSecond) (5 * nanoSecond)
      "0123456789abcdef0123456789abcdef").2 (by decide),
   (c3_renewFileset_validation (86400 * nanoSecond) (nanoSecond / 2)
      "0123456789abcdef0123456789abcdef").1.mpr (by decide)⟩

/-! ## C4 -/

/-- C4: `copyFile` with `overwrite = true`, a finished source commit and
an open destination commit fails with the "overwrite not yet supported"
validation error and performs no write (the result is `failed`, which
the model reaches before any writer is involved); and the overwrite
check sits after the commit-state checks, so an unfinished source or a
finished destination surfaces its state error for either overwrite
flag. -/
theorem c4_copyFile_overwrite_rejected
    (env : DriverEnv) (fsOf : String → List IdxEntry)
    (src dst : FileRef) (tag : String) :
    (∀ srcCI dstCI ts,
      env.inspectCommit src.commit = .ok srcCI → srcCI.finished = some ts →
      env.inspectCommit dst.commit = .ok dstCI → dstCI.finished = none →
      copyFile env fsOf src dst true tag =
        .failed (.validation "overwrite not yet supported")) ∧
    (∀ srcCI, env.inspectCommit src.commit = .ok srcCI →
      srcCI.finished = none → ∀ ow,
      copyFile env fsOf src dst ow tag =
        .failed (.commitNotFinished srcCI.commit)) ∧
    (∀ srcCI dstCI ts td,
      env.inspectCommit src.commit = .ok srcCI → srcCI.finished = some ts →
      env.inspectCommit dst.commit = .ok dstCI → dstCI.finished = some td →
      ∀ ow, copyFile env fsOf src dst ow tag =
        .failed (.commitFinished dstCI.commit)) := by
  refine ⟨?_, ?_, ?_⟩
  · intro srcCI dstCI ts hs hsf hd hdf
    unfold copyFile
    rw [hs]
    simp only [hsf, Option.isNone_some, Bool.false_eq_true, if_false]
    rw [hd]
    simp [hdf]
  · intro srcCI hs hsf ow
    unfold copyFile
    rw [hs]
    simp [hsf]
  · intro srcCI dstCI ts td hs hsf hd hdf ow
    unfold copyFile
    rw [hs]
    simp only [hsf, Option.isNone_some, Bool.false_eq_true, if_false]
    rw [hd]
    simp [hdf]

/-- An environment for the C4/C5 witnesses: the source commit is
finished, the destination commit is open. -/
def envCopy : DriverEnv where
  inspectCommit := fun c => if c.id = "srcC" then .ok ⟨c, some 3⟩ else .ok ⟨c, none⟩
  authOK := fun _ => true
  storeGetFileset := fun _ => .ok "fsSrc"

/-- The source file reference of the C4/C5 witnesses. -/
def srcRef : FileRef := ⟨⟨"repoA", "srcC"⟩, "/a"⟩

/-- The destination file reference of the C4/C5 witnesses. -/
def dstRef : FileRef := ⟨⟨"repoA", "dstC"⟩, "/d"⟩

/-- Witness for C4 at a concrete finished source and open destination. -/
theorem c4_witness :
    copyFile envCopy (fun _ => []) srcRef dstRef true "t0" =
      .failed (.validation "overwrite not yet supported") :=
  (c4_copyFile_overwrite_rejected envCopy (fun _ => []) srcRef dstRef "t0").1
    ⟨⟨"repoA", "srcC"⟩, some 3⟩ ⟨⟨"repoA", "dstC"⟩, none⟩ 3 rfl rfl (by simp [envCopy, dstRef]) rfl

/-! ## C6 -/

/-- The number of logged-error events in a master event trace. -/
def countLogged (evs : List MasterEvent) : Nat :=
  (evs.filter fun ev => match ev with
    | .loggedError _ => true
    | _ => false).length

theorem countLogged_append (a b : List MasterEvent) :
    countLogged (a ++ b) = countLogged a + countLogged b := by
  simp [countLogged, List.filter_append]

theorem countLogged_iterEvents (o : IterOutcome) : countLogged (iterEvents o) = 0 := by
  cases o <;> simp [iterEvents, countLogged]

theorem retryNotify_all_errors (outs : Nat → IterOutcome) :
    ∀ fuel start, (∀ k, k < fuel → iterErr (outs (start + k)) ≠ none) →
    ∃ evs, retryNotify outs start fuel = .stillLooping evs ∧ countLogged evs = fuel := by
  intro fuel
  induction fuel with
  | zero => intro start _; exact ⟨[], rfl, rfl⟩
  | succ f ih =>
    intro start herr
    have h0 : iterErr (outs start) ≠ none := by
      have := herr 0 (Nat.succ_pos f)
      simpa using this
    obtain ⟨e, he⟩ : ∃ e, iterErr (outs start) = some e := by
      cases h : iterErr (outs start) with
      | none => exact absurd h h0
      | some e => exact ⟨e, rfl⟩
    obtain ⟨evs, hrec, hcount⟩ := ih (start + 1) (by
      intro k hk
      have := herr (k + 1) (Nat.succ_lt_succ hk)
      simpa [Nat.add_assoc, Nat.add_comm 1 k] using this)
    refine ⟨iterEvents (outs start) ++ .loggedError e :: evs, ?_, ?_⟩
    · unfold retryNotify
      dsimp only
      rw [he, hrec]
    · rw [show MasterEvent.loggedError e :: evs = [MasterEvent.loggedError e] ++ evs from rfl,
        countLogged_append, countLogged_append, countLogged_iterEvents, hcount]
      simp [countLogged]
      omega

/-- C6: the master function is an unbounded retry loop.  (i) While every
observed iteration errors (in lock acquisition or in GC), the loop is
still running after any number of iterations and has logged each error —
it retries indefinitely.  (ii) In every iteration that acquires the
lock, the events are exactly lock-acquire, GC sweep, lock-release: the
lock is held for the sweep's duration and released when the sweep
returns, even on a GC error; a failed acquisition touches nothing.
(iii) `master` never returns normally: whenever the retry loop exits,
`master` panics with the loop's result. -/
theorem c6_master_retry_loop (outs : Nat → IterOutcome) (fuel : Nat) :
    ((∀ k, k < fuel → iterErr (outs k) ≠ none) →
      ∃ evs, master outs fuel = .stillRunning evs ∧ countLogged evs = fuel) ∧
    ((∀ e, iterEvents (.lockFailed e) = []) ∧
     (∀ e, iterEvents (.gcFailed e) =
        [.lockAcquired, .gcSweepRan, .lockReleased]) ∧
     iterEvents .gcSucceeded = [.lockAcquired, .gcSweepRan, .lockReleased]) ∧
    (∀ evs r, retryNotify outs 0 fuel = .returned evs r →
      master outs fuel = .panicked evs r) := by
  refine ⟨?_, ⟨fun _ => rfl, fun _ => rfl, rfl⟩, ?_⟩
  · intro herr
    obtain ⟨evs, hloop, hcount⟩ := retryNotify_all_errors outs fuel 0 (by simpa using herr)
    exact ⟨evs, by unfold master; rw [hloop], hcount⟩
  · intro evs r hret
    unfold master
    rw [hret]

/-- Witness for C6: three failing iterations leave the loop running with
three logged errors, and a successful sweep makes the loop return and
`master` panic. -/
theorem c6_witness :
    (∃ evs, master (fun _ => .lockFailed "lost") 3 = .stillRunning evs ∧
      countLogged evs = 3) ∧
    master (fun _ => .gcSucceeded) 1 =
      .panicked [.lockAcquired, .gcSweepRan, .lockReleased] none :=
  ⟨(c6_master_retry_loop (fun _ => .lockFailed "lost") 3).1
      (fun k _ => by simp [iterErr]),
   (c6_master_retry_loop (fun _ => .gcSucceeded) 1).2.2
      [.lockAcquired, .gcSweepRan, .lockReleased] none rfl⟩

/-! ## C8 -/

theorem natDigitsAux_head_digit (fuel : Nat) :
    ∀ n, n < fuel →
      ∃ m, m < 10 ∧ (natDigitsAux fuel n).head? = some (digitChar m) := by
  induction fuel with
  | zero => intro n h; omega
  | succ f ih =>
    intro n hn
    unfold natDigitsAux
    split
    next h => exact ⟨n, h, rfl⟩
    next h =>
      have hlt : n / 10 < f := by omega
      obtain ⟨m, hm, hh⟩ := ih (n / 10) hlt
      refine ⟨m, hm, ?_⟩
      cases hnd : natDigitsAux f (n / 10) with
      | nil => rw [hnd] at hh; simp at hh
      | cons c l =>
        rw [hnd] at hh
        simp at hh
        simp [hnd, hh]

theorem natDigits_head_digit (n : Nat) :
    ∃ m, m < 10 ∧ (natDigits n).head? = some (digitChar m) :=
  natDigitsAux_head_digit (n + 1) n (Nat.lt_succ_self n)

theorem digitChar_ne_percent (m : Nat) (h : m < 10) : digitChar m ≠ '%' := by
  interval_cases m <;> decide

theorem sprintfZeroPad12_head_ne_percent (t : Int) :
    ∃ c, (sprintfZeroPad12 t).data.head? = some c ∧ c ≠ '%' := by
  unfold sprintfZeroPad12 zeroPad
  split
  · exact ⟨'-', by simp, by decide⟩
  · by_cases hlen : (natDigits t.natAbs).length < 12
    · refine ⟨'0', ?_, by decide⟩
      cases hrep : 12 - (natDigits t.natAbs).length with
      | zero => omega
      | succ k => simp [hrep, List.replicate_succ]
    · obtain ⟨m, hm, hh⟩ := natDigits_head_digit t.natAbs
      have h0 : 12 - (natDigits t.natAbs).length = 0 := by omega
      refine ⟨digitChar m, ?_, digitChar_ne_percent m hm⟩
      simp [h0, hh]

/-- C8: `getDefaultTag` does not interpret the `%012d` verb —
`fmt.Sprint` concatenates the operands, so for every timestamp the tag
is the literal string `%012d` immediately followed by the decimal
nanosecond value, and never the zero-padded 12-digit rendering that
`fmt.Sprintf` would have produced. -/
theorem c8_getDefaultTag_uninterpreted_verb (t : Int) :
    getDefaultTag t = "%012d" ++ intDecimal t ∧
    getDefaultTag t ≠ sprintfZeroPad12 t := by
  have h1 : getDefaultTag t = "%012d" ++ intDecimal t := by
    apply String.ext
    simp [getDefaultTag, goSprint, formatValue, GoValue.isStr, String.data_append]
  refine ⟨h1, ?_⟩
  intro heq
  obtain ⟨c, hc, hne⟩ := sprintfZeroPad12_head_ne_percent t
  rw [← heq, h1] at hc
  rw [String.data_append] at hc
  have hpc : ("%012d".data ++ (intDecimal t).data).head? = some '%' := rfl
  rw [hpc] at hc
  exact hne (by injection hc with h2; exact h2.symm)

/-- Witness is not required (no hypotheses), but the claim theorem has a
universally quantified timestamp; this instance pins the concrete
behavior at t = 1234. -/
theorem c8_witness :
    getDefaultTag 1234 = "%012d1234" ∧ sprintfZeroPad12 1234 = "000000001234" := by
  constructor
  · rw [(c8_getDefaultTag_uninterpreted_verb 1234).1]
    decide
  · decide

/-! ## C9 -/

/-- C9: when `modifyFile` targets a commit whose id is a branch name
(not a dashless UUID) and the branch's head is already finished, or the
branch/head is absent (a not-found or no-head inspection error), it does
not surface a commit-finished or not-found error: it runs the one-off
write transaction, which starts a fresh commit on the branch, applies
the buffered writes, and finishes the commit inside one write
transaction; and when inspection succeeds, a commit-finished error can
only be returned for a UUID-identified commit. -/
theorem c9_modifyFile_branch_semantics
    (env : DriverEnv) (w : WriteEnv) (isUUID : String → Bool) (commit : Commit)
    (hbr : isUUID commit.id = false) (hne : commit.id ≠ "") :
    (∀ ci t, env.inspectCommit commit = .ok ci → ci.finished = some t →
      modifyFile env w isUUID commit =
        .oneOffTxn (oneOffModifyFile w commit.repo commit.id).1
                   (oneOffModifyFile w commit.repo commit.id).2) ∧
    (∀ e, env.inspectCommit commit = .error e →
      (isNotFoundErr e = true ∨ isNoHeadErr e = true) →
      modifyFile env w isUUID commit =
        .oneOffTxn (oneOffModifyFile w commit.repo commit.id).1
                   (oneOffModifyFile w commit.repo commit.id).2) ∧
    (∀ c, w.startCommit commit.repo commit.id = .ok c →
      w.applyWrites c = none → w.finishCommit c = none →
      oneOffModifyFile w commit.repo commit.id =
        ([.startedCommit commit.repo commit.id c, .appliedWrites c,
          .finishedCommit c], none)) ∧
    (∀ ci, env.inspectCommit commit = .ok ci →
      ∀ c2, modifyFile env w isUUID commit ≠ .err (.commitFinished c2)) := by
  refine ⟨?_, ?_, ?_, ?_⟩
  · intro ci t hins hfin
    unfold modifyFile
    rw [hins]
    simp [hbr, hfin, hne]
  · intro e hins herr
    unfold modifyFile
    rw [hins]
    rcases herr with h | h <;> simp [hbr, hne, h]
  · intro c hstart happ hfin
    simp [oneOffModifyFile, hstart, happ, hfin]
  · intro ci hins c2
    unfold modifyFile
    rw [hins]
    dsimp only
    split
    · simp [hbr, hne]
    · simp

/-- A concrete write environment for the C9 witness. -/
def writeEnvA : WriteEnv where
  startCommit := fun repo _ => .ok ⟨repo, "freshC"⟩
  applyWrites := fun _ => none
  finishCommit := fun _ => none

/-- The branch-named commit reference of the C9 witness. -/
def branchCommit : Commit := ⟨"repoA", "mainBranch"⟩

/-- Witness for C9: a finished branch head falls through to the one-off
write transaction that starts, writes and finishes a fresh commit. -/
theorem c9_witness :
    modifyFile envFinished writeEnvA (fun _ => false) branchCommit =
      .oneOffTxn
        [.startedCommit "repoA" "mainBranch" ⟨"repoA", "freshC"⟩,
         .appliedWrites ⟨"repoA", "freshC"⟩,
         .finishedCommit ⟨"repoA", "freshC"⟩] none := by
  have h := c9_modifyFile_branch_semantics envFinished writeEnvA (fun _ => false)
    branchCommit rfl (by decide)
  have h1 := h.1 ⟨branchCommit, some 7⟩ 7 rfl rfl
  have h3 := h.2.2.1 ⟨"repoA", "freshC"⟩ rfl rfl rfl
  rw [h1, h3]
  rfl

/-! ## Prefix lemmas shared by the remaining claims -/

theorem strIsPrefixOf_iff (a b : String) :
    strIsPrefixOf a b = true ↔ a.data <+: b.data := by
  simp [strIsPrefixOf, List.isPrefixOf_iff_prefix]

theorem strIsPrefixOf_refl (a : String) : strIsPrefixOf a a = true := by
  simp [strIsPrefixOf_iff]

theorem strIsPrefixOf_of_slash (a b : String)
    (h : strIsPrefixOf (a ++ "/") b = true) : strIsPrefixOf a b = true := by
  rw [strIsPrefixOf_iff] at h ⊢
  refine List.IsPrefix.trans ?_ h
  rw [String.data_append]
  exact List.prefix_append _ _

/-! ## C5 -/

/-- C5: `copyFile` with `overwrite = false` rebases the source prefix
onto the destination prefix: the entries appended to the destination
commit are exactly those source-commit entries whose path equals the
cleaned source path or starts with it plus `/`, each placed at
`path.Join(dstPath, filepath.Rel(srcPath, originalPath))` (and stamped
with the writer's tag); entries outside the prefix range are never
copied. -/
theorem c5_copyFile_rebases_source_subtree
    (env : DriverEnv) (fsOf : String → List IdxEntry)
    (src dst : FileRef) (tag : String)
    (srcCI dstCI : CommitInfo) (ts : Nat) (fsid : String)
    (hs : env.inspectCommit src.commit = .ok srcCI)
    (hsf : srcCI.finished = some ts)
    (hd : env.inspectCommit dst.commit = .ok dstCI)
    (hdf : dstCI.finished = none)
    (hs2 : env.inspectCommit srcCI.commit = .ok srcCI)
    (hd2 : env.inspectCommit dstCI.commit = .ok dstCI)
    (hauth : env.authOK srcCI.commit.repo = true)
    (hstore : env.storeGetFileset srcCI.commit = .ok fsid) :
    copyFile env fsOf src dst false tag =
      .copied dstCI.commit
        (((fsOf fsid).filter fun e =>
            decide (e.path = cleanPath src.path) ||
              strIsPrefixOf (cleanPath src.path ++ "/") e.path).map
          fun e =>
            { path := goPathJoin (cleanPath dst.path) (goRel (cleanPath src.path) e.path)
              tag := tag
              content := e.content }) := by
  have hopen : openCommit env fsOf srcCI.commit (some (cleanPath src.path)) =
      .opened srcCI.commit
        (applyPrefix (some (cleanPath src.path)) (fsOf fsid)) := by
    unfold openCommit
    rw [hauth]
    simp only [not_true_eq_false, if_false]
    rw [hs2]
    simp only [hsf, Option.isNone_some, Bool.false_eq_true, if_false]
    rw [hstore]
  unfold copyFile
  rw [hs]
  simp only [hsf, Option.isNone_some, Bool.false_eq_true, if_false]
  rw [hd]
  simp only [hdf, Option.isSome_none, Bool.false_eq_true, if_false, Bool.false_eq_true,
    if_false]
  rw [hopen]
  unfold withCommitWriter
  rw [hd2]
  simp only [hdf, Option.isSome_none, Bool.false_eq_true, if_false]
  congr 1
  unfold indexMapper indexFilter applyPrefix pathTransform
  rw [List.map_map, List.filter_filter]
  rw [List.filter_congr (q := fun e =>
    decide (e.path = cleanPath src.path) ||
      strIsPrefixOf (cleanPath src.path ++ "/") e.path) ?_]
  · apply List.map_congr_left
    intro e _
    rfl
  · intro e _
    cases hq : (decide (e.path = cleanPath src.path) ||
        strIsPrefixOf (cleanPath src.path ++ "/") e.path) with
    | false => simp [hq]
    | true =>
      simp only [hq, Bool.true_and]
      rcases Bool.or_eq_true_iff.mp hq with h1 | h1
      · have h2 : e.path = cleanPath src.path := of_decide_eq_true h1
        rw [h2]
        exact strIsPrefixOf_refl _
      · exact strIsPrefixOf_of_slash _ _ h1

/-- The source fileset of the C5 witness. -/
def fsC5 : String → List IdxEntry := fun _ =>
  [⟨"/a", "t0", "A"⟩, ⟨"/a/x", "t0", "X"⟩, ⟨"/ab", "t0", "B"⟩, ⟨"/b", "t0", "C"⟩]

/-- Witness for C5: copying `/a` onto `/d` appends exactly the rebased
`/a` subtree. -/
theorem c5_witness :
    copyFile envCopy fsC5 srcRef dstRef false "t9" =
      .copied ⟨"repoA", "dstC"⟩
        [⟨"/d", "t9", "A"⟩, ⟨"/d/x", "t9", "X"⟩] := by
  rw [c5_copyFile_rebases_source_subtree envCopy fsC5 srcRef dstRef "t9"
    ⟨⟨"repoA", "srcC"⟩, some 3⟩ ⟨⟨"repoA", "dstC"⟩, none⟩ 3 "fsSrc"
    rfl rfl (by simp [envCopy, dstRef]) rfl rfl
    (by simp [envCopy, dstRef]) rfl rfl]
  decide

/-! ## C7: structural lemmas about the read pipeline -/

theorem resolveEntries_subset : ∀ (l : List IdxEntry), ∀ e ∈ resolveEntries l, e ∈ l := by
  intro l
  induction l with
  | nil => intro e he; simp [resolveEntries] at he
  | cons x rest ih =>
    intro e he
    unfold resolveEntries at he
    split at he
    · exact List.mem_cons_of_mem _ (ih e he)
    · rcases List.mem_cons.mp he with rfl | h2
      · exact List.mem_cons_self _ _
      · exact List.mem_cons_of_mem _ (ih e h2)

theorem dirParentsAux_spec (l : List Char) :
    ∀ acc x, x ∈ dirParentsAux acc l →
      x <+: acc ++ l ∧ x.getLast? = some '/' := by
  induction l with
  | nil => intro acc x h; simp [dirParentsAux] at h
  | cons c rest ih =>
    intro acc x h
    unfold dirParentsAux at h
    by_cases hc : c = '/' ∧ rest ≠ []
    · rw [if_pos hc] at h
      rcases List.mem_cons.mp h with rfl | h2
      · refine ⟨?_, by rw [List.getLast?_concat, hc.1]⟩
        rw [show acc ++ c :: rest = (acc ++ [c]) ++ rest by simp]
        exact List.prefix_append _ _
      · obtain ⟨h3, h4⟩ := ih (acc ++ [c]) x h2
        refine ⟨?_, h4⟩
        rw [show acc ++ c :: rest = (acc ++ [c]) ++ rest by simp]
        exact h3
    · rw [if_neg hc] at h
      obtain ⟨h3, h4⟩ := ih (acc ++ [c]) x h
      refine ⟨?_, h4⟩
      rw [show acc ++ c :: rest = (acc ++ [c]) ++ rest by simp]
      exact h3

theorem dirParents_spec (q d : String) (h : d ∈ dirParents q) :
    d.data <+: q.data ∧ d.data.getLast? = some '/' := by
  unfold dirParents at h
  obtain ⟨x, hx, rfl⟩ := List.mem_map.mp h
  simpa using dirParentsAux_spec q.data [] x hx

theorem mem_insDirs (l : List IdxEntry) :
    ∀ seen x, x ∈ insDirs seen l →
      x ∈ l ∨ ∃ e ∈ l, x.path ∈ dirParents e.path := by
  induction l with
  | nil => intro seen x h; simp [insDirs] at h
  | cons e rest ih =>
    intro seen x h
    unfold insDirs at h
    rcases List.mem_append.mp h with h1 | h1
    · obtain ⟨d, hd, rfl⟩ := List.mem_map.mp h1
      right
      exact ⟨e, List.mem_cons_self _ _, (List.mem_filter.mp hd).1⟩
    · rcases List.mem_cons.mp h1 with rfl | h2
      · exact .inl (List.mem_cons_self _ _)
      · rcases ih _ x h2 with h3 | ⟨e2, he2, h4⟩
        · exact .inl (List.mem_cons_of_mem _ h3)
        · exact .inr ⟨e2, List.mem_cons_of_mem _ he2, h4⟩

/-! Cleaned paths never end in a slash (except the root itself), so a
synthesized directory entry can never collide with an inspected path. -/

theorem splitOnSlash_no_slash : ∀ (l : List Char), ∀ x ∈ splitOnSlash l, '/' ∉ x := by
  intro l
  induction l with
  | nil =>
    intro x hx
    simp only [splitOnSlash, List.mem_singleton] at hx
    simp [hx]
  | cons c rest ih =>
    intro x hx
    unfold splitOnSlash at hx
    by_cases hc : c = '/'
    · rw [if_pos hc] at hx
      rcases List.mem_cons.mp hx with rfl | h2
      · simp
      · exact ih x h2
    · rw [if_neg hc] at hx
      cases hr : splitOnSlash rest with
      | nil =>
        rw [hr] at hx
        simp only [List.mem_singleton] at hx
        subst hx
        intro hmem
        rcases List.mem_singleton.mp hmem with h3
        exact hc h3.symm
      | cons y ys =>
        rw [hr] at hx
        rcases List.mem_cons.mp hx with rfl | h2
        · intro hmem
          rcases List.mem_cons.mp hmem with h3 | h3
          · exact hc h3.symm
          · exact ih y (by rw [hr]; exact List.mem_cons_self _ _) h3
        · exact ih x (by rw [hr]; exact List.mem_cons_of_mem _ h2)

/-- A path element kept by `cleanElems`: non-empty and slash-free. -/
def goodElem (x : List Char) : Prop := x ≠ [] ∧ '/' ∉ x

theorem cleanElems_good (rooted : Bool) :
    ∀ (inp stack : List (List Char)),
      (∀ x ∈ stack, goodElem x) → (∀ x ∈ inp, '/' ∉ x) →
      ∀ x ∈ cleanElems rooted stack inp, goodElem x := by
  intro inp
  induction inp with
  | nil =>
    intro stack hs _ x hx
    exact hs x (by simpa [cleanElems] using hx)
  | cons e rest ih =>
    intro stack hs hi x hx
    have hirest : ∀ y ∈ rest, '/' ∉ y := fun y hy => hi y (List.mem_cons_of_mem _ hy)
    unfold cleanElems at hx
    by_cases h1 : e = [] ∨ e = ['.']
    · rw [if_pos h1] at hx
      exact ih stack hs hirest x hx
    · rw [if_neg h1] at hx
      by_cases h2 : e = ['.', '.']
      · rw [if_pos h2] at hx
        cases stack with
        | nil =>
          cases rooted with
          | true => exact ih [] (by simp) hirest x (by simpa using hx)
          | false =>
            refine ih [['.', '.']] ?_ hirest x (by simpa using hx)
            intro y hy
            rcases List.mem_singleton.mp hy with rfl
            exact ⟨by simp, by decide⟩
        | cons top stack2 =>
          simp only at hx
          by_cases h3 : top = ['.', '.']
          · rw [if_pos h3] at hx
            refine ih (e :: top :: stack2) ?_ hirest x hx
            intro y hy
            rcases List.mem_cons.mp hy with rfl | hy2
            · exact ⟨by rw [h2]; simp, by rw [h2]; decide⟩
            · exact hs y hy2
          · rw [if_neg h3] at hx
            exact ih stack2 (fun y hy => hs y (List.mem_cons_of_mem _ hy)) hirest x hx
      · rw [if_neg h2] at hx
        refine ih (e :: stack) ?_ hirest x hx
        intro y hy
        rcases List.mem_cons.mp hy with rfl | hy2
        · exact ⟨fun hni => h1 (.inl hni), hi y (List.mem_cons_self _ _)⟩
        · exact hs y hy2

theorem joinElems_good (elems : List (List Char)) (hne : elems ≠ [])
    (hgood : ∀ x ∈ elems, goodElem x) :
    joinElems elems ≠ [] ∧ (joinElems elems).getLast? ≠ some '/' := by
  induction elems with
  | nil => exact absurd rfl hne
  | cons e rest ih =>
    cases rest with
    | nil =>
      have hg := hgood e (List.mem_cons_self _ _)
      refine ⟨by simpa [joinElems] using hg.1, ?_⟩
      intro hlast
      exact hg.2 (List.mem_of_getLast?_eq_some hlast)
    | cons e2 rest2 =>
      have ihr := ih (by simp) (fun x hx => hgood x (List.mem_cons_of_mem _ hx))
      refine ⟨by simp [joinElems], ?_⟩
      rw [show joinElems (e :: e2 :: rest2) = e ++ '/' :: joinElems (e2 :: rest2) from rfl]
      rw [List.getLast?_append_of_ne_nil _ (by simp)]
      cases hj : joinElems (e2 :: rest2) with
      | nil => exact absurd hj ihr.1
      | cons a as =>
        rw [List.getLast?_cons_cons]
        rw [← hj]
        exact ihr.2

theorem goClean_no_trailing_slash (s : String) :
    goClean s = "/" ∨ (goClean s).data.getLast? ≠ some '/' := by
  have hgood : ∀ (b : Bool),
      ∀ x ∈ (cleanElems b [] (splitOnSlash s.data)).reverse, goodElem x := by
    intro b x hx
    exact cleanElems_good b (splitOnSlash s.data) [] (by simp)
      (splitOnSlash_no_slash s.data) x (List.mem_reverse.mp hx)
  unfold goClean
  by_cases hr : s.data.head? = some '/'
  · rw [if_pos hr]
    cases helems : (cleanElems true [] (splitOnSlash s.data)).reverse with
    | nil =>
      left
      rfl
    | cons e es =>
      right
      have hjoin := joinElems_good (e :: es) (by simp)
        (by rw [← helems]; exact hgood true)
      cases hjn : joinElems (e :: es) with
      | nil => exact absurd hjn hjoin.1
      | cons a as =>
        show ('/' :: a :: as).getLast? ≠ some '/'
        rw [List.getLast?_cons_cons, ← hjn]
        exact hjoin.2
  · rw [if_neg hr]
    cases helems : (cleanElems false [] (splitOnSlash s.data)).reverse with
    | nil =>
      right
      decide
    | cons e es =>
      right
      have hjoin := joinElems_good (e :: es) (by simp)
        (by rw [← helems]; exact hgood false)
      rw [if_neg hjoin.1]
      show (joinElems (e :: es)).getLast? ≠ some '/'
      exact hjoin.2

theorem cleanPath_no_trailing_slash (fp : String) :
    cleanPath fp = "/" ∨ (cleanPath fp).data.getLast? ≠ some '/' :=
  goClean_no_trailing_slash _

/-- Emptiness of the filtered read pipeline for an absent path. -/
theorem absent_filter_nil (L : List IdxEntry) (p : String)
    (hp : p.data.getLast? ≠ some '/')
    (habs : ∀ e ∈ L, e.path ≠ p ∧ strIsPrefixOf (p ++ "/") e.path = false) :
    indexFilter (fun idx => decide (idx.path = p) ||
        strIsPrefixOf (p ++ "/") idx.path)
      (dirInserter (resolveEntries L)) = [] := by
  unfold indexFilter
  rw [List.filter_eq_nil_iff]
  intro x hx
  rcases mem_insDirs (resolveEntries L) [] x hx with h1 | ⟨e2, he2, h4⟩
  · have hxL := resolveEntries_subset L x h1
    have := habs x hxL
    simp [this.1, this.2]
  · have he2L := resolveEntries_subset L e2 he2
    obtain ⟨hpre, hslash⟩ := dirParents_spec e2.path x.path h4
    have hne : x.path ≠ p := by
      intro hcontra
      rw [hcontra] at hslash
      exact hp hslash
    have hnpre : strIsPrefixOf (p ++ "/") x.path = false := by
      by_contra hc
      have hc2 : strIsPrefixOf (p ++ "/") x.path = true := by
        cases h : strIsPrefixOf (p ++ "/") x.path with
        | false => exact absurd h hc
        | true => rfl
      have h5 : (p ++ "/").data <+: e2.path.data :=
        List.IsPrefix.trans ((strIsPrefixOf_iff _ _).mp hc2) hpre
      have h6 := (habs e2 he2L).2
      rw [(strIsPrefixOf_iff _ _).mpr h5] at h6
      cases h6
    simp [hne, hnpre]

/-- C7: for every finished commit and every path absent from it (no
entry at the cleaned path and none under it), `inspectFile` fails with
`ErrFileNotFound` naming the file — it never reports success for an
absent file. -/
theorem c7_inspectFile_absent_not_found
    (env : DriverEnv) (fsOf : String → List IdxEntry) (file : FileRef)
    (ci : CommitInfo) (t : Nat) (fsid : String)
    (hauth : env.authOK file.commit.repo = true)
    (hins : env.inspectCommit file.commit = .ok ci)
    (hfin : ci.finished = some t)
    (hstore : env.storeGetFileset ci.commit = .ok fsid)
    (habs : ∀ e ∈ fsOf fsid,
      e.path ≠ (if cleanPath file.path = "/" then "" else cleanPath file.path) ∧
      strIsPrefixOf
        ((if cleanPath file.path = "/" then "" else cleanPath file.path) ++ "/")
        e.path = false) :
    inspectFile env fsOf file = .error (.fileNotFound file) := by
  have hopen : openCommit env fsOf file.commit
      (some (if cleanPath file.path = "/" then "" else cleanPath file.path)) =
      .opened ci.commit
        (applyPrefix
          (some (if cleanPath file.path = "/" then "" else cleanPath file.path))
          (fsOf fsid)) := by
    unfold openCommit
    rw [hauth]
    simp only [not_true_eq_false, if_false]
    rw [hins]
    simp only [hfin, Option.isNone_some, Bool.false_eq_true, if_false]
    rw [hstore]
  have hp : (if cleanPath file.path = "/" then "" else cleanPath file.path).data.getLast?
      ≠ some '/' := by
    rcases cleanPath_no_trailing_slash file.path with h | h
    · simp [h]
    · by_cases hroot : cleanPath file.path = "/"
      · simp [hroot]
      · simpa [hroot] using h
  have habs2 : ∀ e ∈ applyPrefix
      (some (if cleanPath file.path = "/" then "" else cleanPath file.path))
      (fsOf fsid),
      e.path ≠ (if cleanPath file.path = "/" then "" else cleanPath file.path) ∧
      strIsPrefixOf
        ((if cleanPath file.path = "/" then "" else cleanPath file.path) ++ "/")
        e.path = false := by
    intro e he
    exact habs e (List.mem_filter.mp he).1
  have hnil := absent_filter_nil _ _ hp habs2
  simp only [inspectFile]
  rw [hopen]
  simp only [hnil]
  rfl

/-- The fileset of the C7 witness: a single unrelated entry. -/
def fsC7 : String → List IdxEntry := fun _ => [⟨"/b", "t", "B"⟩]

/-- The absent file of the C7 witness. -/
def fileC7 : FileRef := ⟨⟨"repoA", "c1"⟩, "/a"⟩

/-- Witness for C7: inspecting the absent `/a` fails with
file-not-found. -/
theorem c7_witness :
    inspectFile envFinished fsC7 fileC7 = .error (.fileNotFound fileC7) :=
  c7_inspectFile_absent_not_found envFinished fsC7 fileC7
    ⟨⟨"repoA", "c1"⟩, some 7⟩ 7 "fs0" rfl rfl rfl rfl (by decide)

/-! ## C10: the stateful glob filter pulls in matched-directory subtrees -/

/-- Path order on entries (the streams `getFile` consumes are
lexicographically path-ordered). -/
def entPathLe (a b : IdxEntry) : Prop :=
  charListLe a.path.data b.path.data = true

instance instDecEntPathLe (a b : IdxEntry) : Decidable (entPathLe a b) := by
  unfold entPathLe
  infer_instance

theorem charListLe_of_isPrefixOf : ∀ (a b : List Char), a <+: b → charListLe a b = true := by
  intro a
  induction a with
  | nil => intro b _; rfl
  | cons c as ih =>
    intro b h
    obtain ⟨t, rfl⟩ := h
    show charListLe (c :: as) (c :: (as ++ t)) = true
    unfold charListLe
    simp only [lt_irrefl, if_false, reduceIte]
    exact ih (as ++ t) ⟨t, rfl⟩

/-- In lexicographic order, the strings extending a prefix `a` form a
contiguous block: anything ordered at or after a non-extension `x` of
`a` (with `a <= x`) cannot extend `a` any more. -/
theorem charListLe_prefix_block :
    ∀ (a x f : List Char), a.isPrefixOf f = true → a.isPrefixOf x = false →
      charListLe a x = true → charListLe x f = false := by
  intro a
  induction a with
  | nil => intro x f _ hx _; simp [List.isPrefixOf] at hx
  | cons c a2 ih =>
    intro x f hf hx hle
    cases f with
    | nil => simp [List.isPrefixOf] at hf
    | cons fc f2 =>
      simp only [List.isPrefixOf, Bool.and_eq_true, beq_iff_eq] at hf
      obtain ⟨heq, hf2⟩ := hf
      subst heq
      cases x with
      | nil => simp [charListLe] at hle
      | cons xc x2 =>
        unfold charListLe at hle ⊢
        by_cases h1 : c < xc
        · rw [if_neg (asymm h1), if_pos h1]
        · by_cases h2 : xc < c
          · rw [if_neg h1, if_pos h2] at hle
            cases hle
          · have hceq : c = xc := by
              rcases lt_trichotomy c xc with h | h | h
              · exact absurd h h1
              · exact h
              · exact absurd h h2
            subst hceq
            rw [if_neg h1, if_neg h2] at hle
            rw [if_neg h2, if_neg h1]
            simp only [List.isPrefixOf, beq_self_eq_true, Bool.true_and] at hx
            exact ih x2 f2 hf2 hx hle

theorem string_ne_empty_of_dir (p : String) (h : isDirPath p = true) : p ≠ "" := by
  intro hcon
  rw [hcon] at h
  simp [isDirPath] at h

/-- Once the remembered directory `dir` is a prefix of `dpath`, every
entry of the ordered remainder extending `dpath` is kept. -/
theorem getFileKeep_keeps_subtree (mf : String → Bool) (dpath : String) :
    ∀ (l : List IdxEntry) (dir : String), dir ≠ "" →
      strIsPrefixOf dir dpath = true →
      List.Pairwise entPathLe l →
      (∀ x ∈ l, charListLe dpath.data x.path.data = true) →
      ∀ e ∈ l, strIsPrefixOf dpath e.path = true →
        e ∈ getFileKeep mf dir l := by
  intro l
  induction l with
  | nil => intro dir _ _ _ _ e he; cases he
  | cons x rest ih =>
    intro dir hdirne hdirpre hpw hge e he hepre
    rw [List.pairwise_cons] at hpw
    by_cases hx : strIsPrefixOf dir x.path = true
    · simp only [getFileKeep]
      rw [if_pos ⟨hdirne, hx⟩]
      rcases List.mem_cons.mp he with rfl | he2
      · exact List.mem_cons_self _ _
      · exact List.mem_cons_of_mem _
          (ih dir hdirne hdirpre hpw.2
            (fun y hy => hge y (List.mem_cons_of_mem _ hy)) e he2 hepre)
    · exfalso
      have hdx : strIsPrefixOf dpath x.path = false := by
        cases h : strIsPrefixOf dpath x.path with
        | false => rfl
        | true =>
          exact absurd ((strIsPrefixOf_iff _ _).mpr
            (List.IsPrefix.trans ((strIsPrefixOf_iff _ _).mp hdirpre)
              ((strIsPrefixOf_iff _ _).mp h))) (by simp [hx])
      rcases List.mem_cons.mp he with rfl | he2
      · rw [hepre] at hdx
        cases hdx
      · have hxe : charListLe x.path.data e.path.data = true := hpw.1 e he2
        have := charListLe_prefix_block dpath.data x.path.data e.path.data
          hepre hdx (hge x (List.mem_cons_self _ _))
        rw [this] at hxe
        cases hxe

/-- One-step unfolding of the stateful glob filter. -/
theorem getFileKeep_cons (mf : String → Bool) (dir : String) (x : IdxEntry)
    (rest : List IdxEntry) :
    getFileKeep mf dir (x :: rest) =
      if dir ≠ "" ∧ strIsPrefixOf dir x.path = true then
        x :: getFileKeep mf dir rest
      else if mf x.path then
        x :: getFileKeep mf
          (if mf x.path = true ∧ isDirPath x.path = true then x.path else dir) rest
      else getFileKeep mf
        (if mf x.path = true ∧ isDirPath x.path = true then x.path else dir) rest := rfl

/-- Processing reaches the matched directory entry `d` with some
remembered `dir`; from there, `d` and its whole ordered subtree are
kept. -/
theorem getFileKeep_dir_match (mf : String → Bool) (d : IdxEntry)
    (l2 : List IdxEntry) (hm : mf d.path = true) (hdir : isDirPath d.path = true) :
    ∀ (l1 : List IdxEntry) (dir : String),
      List.Pairwise entPathLe (l1 ++ d :: l2) →
      d ∈ getFileKeep mf dir (l1 ++ d :: l2) ∧
      ∀ e ∈ l2, strIsPrefixOf d.path e.path = true →
        e ∈ getFileKeep mf dir (l1 ++ d :: l2) := by
  intro l1
  induction l1 with
  | nil =>
    intro dir hpw
    rw [List.nil_append] at hpw ⊢
    rw [List.pairwise_cons] at hpw
    have hge : ∀ x ∈ l2, charListLe d.path.data x.path.data = true :=
      fun x hx => hpw.1 x hx
    rw [getFileKeep_cons]
    by_cases hb : dir ≠ "" ∧ strIsPrefixOf dir d.path = true
    · rw [if_pos hb]
      refine ⟨List.mem_cons_self _ _, ?_⟩
      intro e he hepre
      exact List.mem_cons_of_mem _
        (getFileKeep_keeps_subtree mf d.path l2 dir hb.1 hb.2 hpw.2 hge e he hepre)
    · rw [if_neg hb, hm, hdir]
      rw [if_pos (⟨rfl, rfl⟩ : (true : Bool) = true ∧ (true : Bool) = true)]
      rw [if_pos rfl]
      refine ⟨List.mem_cons_self _ _, ?_⟩
      intro e he hepre
      exact List.mem_cons_of_mem _
        (getFileKeep_keeps_subtree mf d.path l2 d.path
          (string_ne_empty_of_dir d.path hdir) (strIsPrefixOf_refl d.path)
          hpw.2 hge e he hepre)
  | cons x l1r ih =>
    intro dir hpw
    rw [List.cons_append] at hpw ⊢
    rw [List.pairwise_cons] at hpw
    rw [getFileKeep_cons]
    by_cases hb : dir ≠ "" ∧ strIsPrefixOf dir x.path = true
    · rw [if_pos hb]
      obtain ⟨h1, h2⟩ := ih dir hpw.2
      exact ⟨List.mem_cons_of_mem _ h1,
        fun e he hepre => List.mem_cons_of_mem _ (h2 e he hepre)⟩
    · rw [if_neg hb]
      cases hmx : mf x.path with
      | true =>
        rw [if_pos rfl]
        obtain ⟨h1, h2⟩ := ih
          (if (true : Bool) = true ∧ isDirPath x.path = true then x.path else dir)
          hpw.2
        exact ⟨List.mem_cons_of_mem _ h1,
          fun e he hepre => List.mem_cons_of_mem _ (h2 e he hepre)⟩
      | false =>
        rw [if_neg (by simp)]
        obtain ⟨h1, h2⟩ := ih
          (if (false : Bool) = true ∧ isDirPath x.path = true then x.path else dir)
          hpw.2
        exact ⟨h1, fun e he hepre => h2 e he hepre⟩

/-- C10: in `getFile`'s output, once an entry matching the glob is
emitted and is a directory, every subsequent entry of the path-ordered
stream whose path extends that directory's path is also included, even
when it does not match the glob itself. -/
theorem c10_getFile_dir_match_includes_subtree
    (env : DriverEnv) (fsOf : String → List IdxEntry) (commit : Commit)
    (pre : Option String) (mf : String → Bool) (c : Commit) (es : List IdxEntry)
    (l1 l2 : List IdxEntry) (d : IdxEntry)
    (hopen : openCommit env fsOf commit pre = .opened c es)
    (hsplit : dirInserter es = l1 ++ d :: l2)
    (hsorted : List.Pairwise entPathLe (l1 ++ d :: l2))
    (hm : mf d.path = true) (hdir : isDirPath d.path = true) :
    getFile env fsOf commit pre mf = .ok (getFileKeep mf "" (l1 ++ d :: l2)) ∧
    d ∈ getFileKeep mf "" (l1 ++ d :: l2) ∧
    ∀ e ∈ l2, strIsPrefixOf d.path e.path = true →
      e ∈ getFileKeep mf "" (l1 ++ d :: l2) := by
  obtain ⟨h1, h2⟩ := getFileKeep_dir_match mf d l2 hm hdir l1 "" hsorted
  refine ⟨?_, h1, h2⟩
  unfold getFile
  rw [hopen]
  show Except.ok (getFileKeep mf "" (dirInserter es)) = _
  rw [hsplit]

/-- The entries of the C10 witness fileset. -/
def fsC10 : String → List IdxEntry := fun _ =>
  [⟨"/a/", "t", ""⟩, ⟨"/a/b", "t", "B"⟩]

/-- Witness for C10: the glob matches only the directory `/a/`, yet the
non-matching child `/a/b` is also included. -/
theorem c10_witness :
    getFile envFinished fsC10 commitA none (fun p => decide (p = "/a/")) =
      .ok (getFileKeep (fun p => decide (p = "/a/")) ""
        [⟨"/", "", ""⟩, ⟨"/a/", "t", ""⟩, ⟨"/a/b", "t", "B"⟩]) ∧
    (⟨"/a/", "t", ""⟩ : IdxEntry) ∈ getFileKeep (fun p => decide (p = "/a/")) ""
      [⟨"/", "", ""⟩, ⟨"/a/", "t", ""⟩, ⟨"/a/b", "t", "B"⟩] ∧
    (⟨"/a/b", "t", "B"⟩ : IdxEntry) ∈ getFileKeep (fun p => decide (p = "/a/")) ""
      [⟨"/", "", ""⟩, ⟨"/a/", "t", ""⟩, ⟨"/a/b", "t", "B"⟩] := by
  have h := c10_getFile_dir_match_includes_subtree envFinished fsC10 commitA none
    (fun p => decide (p = "/a/")) commitA
    [⟨"/a/", "t", ""⟩, ⟨"/a/b", "t", "B"⟩]
    [⟨"/", "", ""⟩] [⟨"/a/b", "t", "B"⟩] ⟨"/a/", "t", ""⟩
    rfl rfl (by decide) (by decide) (by decide)
  exact ⟨h.1, h.2.1,
    h.2.2 ⟨"/a/b", "t", "B"⟩ (List.mem_singleton.mpr rfl) (by decide)⟩

end Pachyderm
